import Mathlib

/-!
Verification of the Repeated Balls-into-Bins (RBB) simulator
(`src/rbb_stacs_2023.cc`).

The C++ source is shallowly embedded as follows:

* the `std::vector<size_t>` load vector becomes a `List Nat`;
* the class `RepeatedBallsIntoBins` becomes a structure holding the load
  vector, the two cached statistics and the (inclusive) upper bound of the
  uniform bin distribution `bin_uar_` fixed at construction;
* `nextRound` takes the sequence of sampled bin indices as a function
  `gen : Nat → Nat` (the j-th value drawn from `bin_uar_(generator)`);
  phase 1 is the fold over the vector fusing the conditional decrement with
  the from-scratch recomputation of both statistics, phase 2 folds the
  incremental update over the drawn indices;
* the experiment driver `run_experiments_for_n_and_m` is embedded with the
  same nested accumulation loops, with the final `double` divisions modelled
  as exact rational divisions.

All arithmetic is on `Nat`; the C++ `size_t` subtractions
(`n - num_empty_bins_`, `num_empty_bins_ -= ...`) never underflow in the
consistent states considered by the theorems below, so truncated `Nat`
subtraction coincides with the machine behaviour there.
-/

namespace RBB

/-- Maximum entry of a load vector (the value the constructor's scan and the
phase-1 rescan compute; `0` for the empty vector). -/
def maxLoad (l : List Nat) : Nat := l.foldl max 0

/-- Number of empty bins: the count of indices holding `0`. -/
def countEmpty (l : List Nat) : Nat := l.countP (fun v => v == 0)

/-- State of the `RepeatedBallsIntoBins` class: the load vector, the two
cached statistics, and the inclusive upper end of the uniform distribution
`bin_uar_(0, load_vector.size() - 1)` fixed at construction. -/
@[ext]
structure RepeatedBallsIntoBins where
  load_vector : List Nat
  max_load : Nat
  num_empty_bins : Nat
  bin_uar_hi : Nat

/-- One iteration of the constructor's scan: update the running maximum and
add one to the empty count when the entry is zero. -/
def initStatsStep (acc : Nat × Nat) (val : Nat) : Nat × Nat :=
  (max acc.1 val, acc.2 + if val = 0 then 1 else 0)

/-- The constructor `RepeatedBallsIntoBins(load_vector)`: store the vector,
compute `max_load_` and `num_empty_bins_` by a single scan, and fix the
uniform distribution to `[0, load_vector.size() - 1]`. -/
def initRBB (load_vector : List Nat) : RepeatedBallsIntoBins :=
  let stats := load_vector.foldl initStatsStep (0, 0)
  { load_vector := load_vector
    max_load := stats.1
    num_empty_bins := stats.2
    bin_uar_hi := load_vector.length - 1 }

/-- The phase-1 body applied to one entry: `if (load_vector_[i] > 0)
--load_vector_[i];` followed by the reads of the post-decrement value. -/
def dec1 (v : Nat) : Nat := if v > 0 then v - 1 else v

/-- One iteration of the phase-1 loop: append the decremented entry and fold
it into the from-scratch recomputation of `max_load_` and
`num_empty_bins_`. -/
def phase1Step (acc : List Nat × Nat × Nat) (val : Nat) : List Nat × Nat × Nat :=
  let v := dec1 val
  (acc.1 ++ [v], max acc.2.1 v, acc.2.2 + if v = 0 then 1 else 0)

/-- Phase 1 of `nextRound`: the loop over all bins, starting from the reset
statistics `max_load_ = 0, num_empty_bins_ = 0`. Returns the new load
vector and the two recomputed statistics. -/
def phase1 (lv : List Nat) : List Nat × Nat × Nat :=
  lv.foldl phase1Step ([], 0, 0)

/-- One iteration of the phase-2 loop at sampled index `i`:
`++load_vector_[i]`, then the incremental statistic updates reading the new
value. -/
def phase2Step (st : RepeatedBallsIntoBins) (i : Nat) : RepeatedBallsIntoBins :=
  let load_i := st.load_vector.getD i 0 + 1
  { load_vector := st.load_vector.set i load_i
    max_load := max st.max_load load_i
    num_empty_bins := st.num_empty_bins - (if load_i = 1 then 1 else 0)
    bin_uar_hi := st.bin_uar_hi }

/-- `nextRound(generator)`: record `balls_to_allocate = n - num_empty_bins_`,
run phase 1 over the vector, then fold phase 2 over the
`balls_to_allocate` sampled bin indices `gen 0, gen 1, ...`. -/
def nextRound (st : RepeatedBallsIntoBins) (gen : Nat → Nat) : RepeatedBallsIntoBins :=
  let n := st.load_vector.length
  let balls_to_allocate := n - st.num_empty_bins
  let p1 := phase1 st.load_vector
  ((List.range balls_to_allocate).map gen).foldl phase2Step
    { load_vector := p1.1
      max_load := p1.2.1
      num_empty_bins := p1.2.2
      bin_uar_hi := st.bin_uar_hi }

/-- Accessor `getMaxLoad()`. -/
def getMaxLoad (st : RepeatedBallsIntoBins) : Nat := st.max_load

/-- Accessor `getNumEmptyBins()`. -/
def getNumEmptyBins (st : RepeatedBallsIntoBins) : Nat := st.num_empty_bins

/-- Accessor `getLoadVector()`. -/
def getLoadVector (st : RepeatedBallsIntoBins) : List Nat := st.load_vector

/-- The state after `k` calls of `nextRound`, where `gens k` is the sequence
of bin indices sampled in round `k`. -/
def iterRounds (st : RepeatedBallsIntoBins) (gens : Nat → Nat → Nat) : Nat → RepeatedBallsIntoBins
  | 0 => st
  | k + 1 => nextRound (iterRounds st gens k) (gens k)

/-- `generate_uniform_vector(num_bins, num_balls)`: a vector of
`num_balls / num_bins` per bin, then one extra ball in each of the first
`num_balls % num_bins` bins. -/
def generate_uniform_vector (num_bins num_balls : Nat) : List Nat :=
  let load_vector := List.replicate num_bins (num_balls / num_bins)
  let rem := num_balls % num_bins
  (List.range rem).foldl (fun lv i => lv.set i (lv.getD i 0 + 1)) load_vector

/-- Body of the inner (per-round) loop of `run_experiments_for_n_and_m`:
advance the process one round and add `getMaxLoad()` and
`getNumEmptyBins()` to the running aggregates. -/
def roundStep (gens : Nat → Nat → Nat) (acc : RepeatedBallsIntoBins × Nat × Nat)
    (round : Nat) : RepeatedBallsIntoBins × Nat × Nat :=
  let st := nextRound acc.1 (gens round)
  (st, acc.2.1 + getMaxLoad st, acc.2.2 + getNumEmptyBins st)

/-- Body of the outer (per-repetition) loop of `run_experiments_for_n_and_m`:
build a fresh process from the uniform vector and run `num_rounds` rounds,
threading the two aggregate sums through. -/
def repStep (num_bins num_balls num_rounds : Nat) (gens : Nat → Nat → Nat → Nat)
    (acc : Nat × Nat) (rep : Nat) : Nat × Nat :=
  let rbb := initRBB (generate_uniform_vector num_bins num_balls)
  ((List.range num_rounds).foldl (roundStep (gens rep)) (rbb, acc.1, acc.2)).2

/-- `run_experiments_for_n_and_m`: accumulate the per-round statistics over
`num_repetitions × num_rounds` rounds and divide both sums by
`num_rounds * num_repetitions`. `gens rep round` is the sequence of bin
indices sampled in that round. The C++ `double` divisions are modelled as
exact rational divisions. -/
def run_experiments_for_n_and_m (num_bins num_balls num_rounds num_repetitions : Nat)
    (gens : Nat → Nat → Nat → Nat) : ℚ × ℚ :=
  let agg := (List.range num_repetitions).foldl
    (repStep num_bins num_balls num_rounds gens) (0, 0)
  ((agg.1 : ℚ) / ((num_rounds * num_repetitions : Nat) : ℚ),
   (agg.2 : ℚ) / ((num_rounds * num_repetitions : Nat) : ℚ))

/-- The empty-bin figure printed by `run_experiments`: the average
`avg_num_empty_bins` returned by `run_experiments_for_n_and_m`, further
divided by `num_bins`. -/
def reported_empty_bin_fraction (num_bins num_balls num_rounds num_repetitions : Nat)
    (gens : Nat → Nat → Nat → Nat) : ℚ :=
  (run_experiments_for_n_and_m num_bins num_balls num_rounds num_repetitions gens).2 /
    (num_bins : ℚ)

/-- The engine state observed by the driver after round `round` of
repetition `rep` (both 0-based): `round + 1` transitions from a fresh
process on the uniform vector. -/
def statsAfterRound (num_bins num_balls : Nat) (gens : Nat → Nat → Nat → Nat)
    (rep round : Nat) : RepeatedBallsIntoBins :=
  iterRounds (initRBB (generate_uniform_vector num_bins num_balls)) (gens rep) (round + 1)

/-- Sum of `getMaxLoad()` over all `num_repetitions × num_rounds` observed
rounds. -/
def totalMaxLoadSum (num_bins num_balls num_rounds num_repetitions : Nat)
    (gens : Nat → Nat → Nat → Nat) : Nat :=
  ((List.range num_repetitions).map (fun rep =>
    ((List.range num_rounds).map (fun round =>
      getMaxLoad (statsAfterRound num_bins num_balls gens rep round))).sum)).sum

/-- Sum of `getNumEmptyBins()` over all `num_repetitions × num_rounds`
observed rounds. -/
def totalEmptyBinsSum (num_bins num_balls num_rounds num_repetitions : Nat)
    (gens : Nat → Nat → Nat → Nat) : Nat :=
  ((List.range num_repetitions).map (fun rep =>
    ((List.range num_rounds).map (fun round =>
      getNumEmptyBins (statsAfterRound num_bins num_balls gens rep round))).sum)).sum

end RBB

namespace RBB

/-! ### Characterizing the statistic scans -/

theorem foldl_max_acc (l : List Nat) (a : Nat) : l.foldl max a = max a (maxLoad l) := by
  induction l generalizing a with
  | nil => simp [maxLoad]
  | cons x xs ih =>
    show xs.foldl max (max a x) = max a (maxLoad (x :: xs))
    have h2 : maxLoad (x :: xs) = max x (maxLoad xs) := by
      show xs.foldl max (max 0 x) = _
      rw [ih (max 0 x)]
      omega
    rw [ih (max a x), h2]
    omega

theorem maxLoad_cons (x : Nat) (xs : List Nat) : maxLoad (x :: xs) = max x (maxLoad xs) := by
  show xs.foldl max (max 0 x) = _
  rw [foldl_max_acc]
  omega

theorem countEmpty_cons (x : Nat) (xs : List Nat) :
    countEmpty (x :: xs) = (if x = 0 then 1 else 0) + countEmpty xs := by
  simp only [countEmpty, List.countP_cons, beq_iff_eq]
  split <;> omega

theorem countEmpty_le_length (l : List Nat) : countEmpty l ≤ l.length :=
  List.countP_le_length _

theorem initStats_eq (l : List Nat) (a c : Nat) :
    l.foldl initStatsStep (a, c) = (l.foldl max a, c + countEmpty l) := by
  induction l generalizing a c with
  | nil => simp [countEmpty]
  | cons x xs ih =>
    simp only [List.foldl_cons, initStatsStep, ih, countEmpty_cons, Prod.mk.injEq]
    refine ⟨?_, ?_⟩ <;> first | trivial | rfl | (split <;> omega)

theorem initRBB_load_vector (lv : List Nat) : (initRBB lv).load_vector = lv := rfl

theorem initRBB_max_load (lv : List Nat) : (initRBB lv).max_load = maxLoad lv := by
  show (lv.foldl initStatsStep (0, 0)).1 = maxLoad lv
  rw [initStats_eq]
  rfl

theorem initRBB_num_empty_bins (lv : List Nat) :
    (initRBB lv).num_empty_bins = countEmpty lv := by
  show (lv.foldl initStatsStep (0, 0)).2 = countEmpty lv
  rw [initStats_eq]
  exact Nat.zero_add _

theorem initRBB_bin_uar_hi (lv : List Nat) : (initRBB lv).bin_uar_hi = lv.length - 1 := rfl

/-! ### Phase 1 as a map plus from-scratch statistics -/

theorem phase1_foldl (lv : List Nat) (pre : List Nat) (a c : Nat) :
    lv.foldl phase1Step (pre, a, c) =
      (pre ++ lv.map dec1, (lv.map dec1).foldl max a, c + countEmpty (lv.map dec1)) := by
  induction lv generalizing pre a c with
  | nil => simp [countEmpty]
  | cons x xs ih =>
    simp only [List.foldl_cons, phase1Step, ih, List.map_cons, List.foldl_cons,
      countEmpty_cons, Prod.mk.injEq]
    refine ⟨?_, ?_, ?_⟩ <;> first | trivial | rfl | simp | (split <;> omega)

theorem phase1_spec (lv : List Nat) :
    phase1 lv = (lv.map dec1, maxLoad (lv.map dec1), countEmpty (lv.map dec1)) := by
  show lv.foldl phase1Step ([], 0, 0) = _
  rw [phase1_foldl]
  simp [maxLoad]

/-! ### Pointwise list lemmas -/

theorem getD_lt (l : List Nat) (i : Nat) (h : i < l.length) : l.getD i 0 = l[i] := by
  simp [List.getD_eq_getElem?_getD, List.getElem?_eq_getElem, h]

theorem maxLoad_is_ub (l : List Nat) (i : Nat) (h : i < l.length) : l[i] ≤ maxLoad l := by
  induction l generalizing i with
  | nil => simp at h
  | cons x xs ih =>
    rw [maxLoad_cons]
    cases i with
    | zero => simp
    | succ j =>
      have := ih j (by simpa using h)
      simp only [List.getElem_cons_succ]
      omega

theorem maxLoad_set (l : List Nat) (i v : Nat) (h : i < l.length) (hv : l[i] ≤ v) :
    maxLoad (l.set i v) = max (maxLoad l) v := by
  induction l generalizing i with
  | nil => simp at h
  | cons x xs ih =>
    cases i with
    | zero =>
      simp only [List.set_cons_zero, maxLoad_cons]
      simp only [List.getElem_cons_zero] at hv
      omega
    | succ j =>
      simp only [List.set_cons_succ, maxLoad_cons]
      rw [ih j (by simpa using h) (by simpa using hv)]
      omega

theorem countEmpty_pos (l : List Nat) (i : Nat) (h : i < l.length) (hz : l[i] = 0) :
    1 ≤ countEmpty l := by
  induction l generalizing i with
  | nil => simp at h
  | cons x xs ih =>
    rw [countEmpty_cons]
    cases i with
    | zero =>
      simp only [List.getElem_cons_zero] at hz
      simp [hz]
    | succ j =>
      have := ih j (by simpa using h) (by simpa using hz)
      omega

theorem countEmpty_set (l : List Nat) (i v : Nat) (h : i < l.length) (hv : v ≠ 0) :
    countEmpty (l.set i v) = countEmpty l - (if l[i] = 0 then 1 else 0) := by
  induction l generalizing i with
  | nil => simp at h
  | cons x xs ih =>
    cases i with
    | zero =>
      simp only [List.set_cons_zero, countEmpty_cons, List.getElem_cons_zero]
      simp only [hv, if_false]
      split <;> omega
    | succ j =>
      have hj : j < xs.length := by simpa using h
      simp only [List.set_cons_succ, countEmpty_cons, List.getElem_cons_succ]
      rw [ih j hj]
      by_cases hxj : xs[j] = 0
      · have := countEmpty_pos xs j (by simpa using h) hxj
        simp only [hxj, if_true]
        split <;> omega
      · simp only [hxj, if_false]
        omega

theorem sum_set_add (l : List Nat) (i v : Nat) (h : i < l.length) :
    (l.set i v).sum + l[i] = l.sum + v := by
  induction l generalizing i with
  | nil => simp at h
  | cons x xs ih =>
    cases i with
    | zero => simp [List.set_cons_zero]; omega
    | succ j =>
      simp only [List.set_cons_succ, List.sum_cons, List.getElem_cons_succ]
      have := ih j (by simpa using h)
      omega

theorem sum_map_dec1 (lv : List Nat) :
    (lv.map dec1).sum + (lv.length - countEmpty lv) = lv.sum := by
  induction lv with
  | nil => simp
  | cons x xs ih =>
    have hle := countEmpty_le_length xs
    simp only [List.map_cons, List.sum_cons, List.length_cons, countEmpty_cons, dec1]
    split <;> split <;> omega

end RBB

namespace RBB

/-! ### Phase 2: single step -/

theorem phase2Step_bin_uar_hi (st : RepeatedBallsIntoBins) (i : Nat) :
    (phase2Step st i).bin_uar_hi = st.bin_uar_hi := rfl

theorem phase2Step_length (st : RepeatedBallsIntoBins) (i : Nat) :
    (phase2Step st i).load_vector.length = st.load_vector.length := by
  simp [phase2Step]

theorem phase2Step_max_load (st : RepeatedBallsIntoBins) (i : Nat)
    (hi : i < st.load_vector.length)
    (hmax : st.max_load = maxLoad st.load_vector) :
    (phase2Step st i).max_load = maxLoad (phase2Step st i).load_vector := by
  have hD := getD_lt st.load_vector i hi
  show max st.max_load (st.load_vector.getD i 0 + 1) =
    maxLoad (st.load_vector.set i (st.load_vector.getD i 0 + 1))
  rw [hD, hmax, maxLoad_set st.load_vector i _ hi (Nat.le_succ _)]

theorem phase2Step_num_empty_bins (st : RepeatedBallsIntoBins) (i : Nat)
    (hi : i < st.load_vector.length)
    (hemp : st.num_empty_bins = countEmpty st.load_vector) :
    (phase2Step st i).num_empty_bins = countEmpty (phase2Step st i).load_vector := by
  have hD := getD_lt st.load_vector i hi
  show st.num_empty_bins - (if st.load_vector.getD i 0 + 1 = 1 then 1 else 0) =
    countEmpty (st.load_vector.set i (st.load_vector.getD i 0 + 1))
  rw [hD, hemp, countEmpty_set st.load_vector i _ hi (Nat.succ_ne_zero _)]
  by_cases hz : st.load_vector[i] = 0
  · simp [hz]
  · simp [hz]

theorem phase2Step_sum (st : RepeatedBallsIntoBins) (i : Nat)
    (hi : i < st.load_vector.length) :
    (phase2Step st i).load_vector.sum = st.load_vector.sum + 1 := by
  have hD := getD_lt st.load_vector i hi
  show (st.load_vector.set i (st.load_vector.getD i 0 + 1)).sum = st.load_vector.sum + 1
  have := sum_set_add st.load_vector i (st.load_vector.getD i 0 + 1) hi
  omega

/-! ### Phase 2: the allocation loop -/

theorem phase2_foldl_length (ds : List Nat) (st : RepeatedBallsIntoBins) :
    (ds.foldl phase2Step st).load_vector.length = st.load_vector.length := by
  induction ds generalizing st with
  | nil => rfl
  | cons d ds ih => rw [List.foldl_cons, ih, phase2Step_length]

theorem phase2_foldl_bin_uar_hi (ds : List Nat) (st : RepeatedBallsIntoBins) :
    (ds.foldl phase2Step st).bin_uar_hi = st.bin_uar_hi := by
  induction ds generalizing st with
  | nil => rfl
  | cons d ds ih => rw [List.foldl_cons, ih, phase2Step_bin_uar_hi]

theorem phase2_foldl_consistent (ds : List Nat) (st : RepeatedBallsIntoBins)
    (hds : ∀ d ∈ ds, d < st.load_vector.length)
    (hmax : st.max_load = maxLoad st.load_vector)
    (hemp : st.num_empty_bins = countEmpty st.load_vector) :
    (ds.foldl phase2Step st).max_load = maxLoad (ds.foldl phase2Step st).load_vector ∧
    (ds.foldl phase2Step st).num_empty_bins = countEmpty (ds.foldl phase2Step st).load_vector := by
  induction ds generalizing st with
  | nil => exact ⟨hmax, hemp⟩
  | cons d ds ih =>
    have hd : d < st.load_vector.length := hds d (List.mem_cons_self d ds)
    rw [List.foldl_cons]
    refine ih (phase2Step st d) ?_ ?_ ?_
    · intro d2 h2
      rw [phase2Step_length]
      exact hds d2 (List.mem_cons_of_mem d h2)
    · exact phase2Step_max_load st d hd hmax
    · exact phase2Step_num_empty_bins st d hd hemp

theorem phase2_foldl_sum (ds : List Nat) (st : RepeatedBallsIntoBins)
    (hds : ∀ d ∈ ds, d < st.load_vector.length) :
    (ds.foldl phase2Step st).load_vector.sum = st.load_vector.sum + ds.length := by
  induction ds generalizing st with
  | nil => rfl
  | cons d ds ih =>
    have hd : d < st.load_vector.length := hds d (List.mem_cons_self d ds)
    rw [List.foldl_cons, ih, phase2Step_sum st d hd]
    · simp only [List.length_cons]
      omega
    · intro d2 h2
      rw [phase2Step_length]
      exact hds d2 (List.mem_cons_of_mem d h2)

/-! ### nextRound -/

theorem nextRound_load_vector (st : RepeatedBallsIntoBins) (gen : Nat → Nat) :
    (nextRound st gen).load_vector =
      (((List.range (st.load_vector.length - st.num_empty_bins)).map gen).foldl phase2Step
        { load_vector := st.load_vector.map dec1
          max_load := maxLoad (st.load_vector.map dec1)
          num_empty_bins := countEmpty (st.load_vector.map dec1)
          bin_uar_hi := st.bin_uar_hi }).load_vector := by
  show ((((List.range _).map gen).foldl phase2Step _)).load_vector = _
  rw [phase1_spec]

theorem nextRound_eq (st : RepeatedBallsIntoBins) (gen : Nat → Nat) :
    nextRound st gen =
      ((List.range (st.load_vector.length - st.num_empty_bins)).map gen).foldl phase2Step
        { load_vector := st.load_vector.map dec1
          max_load := maxLoad (st.load_vector.map dec1)
          num_empty_bins := countEmpty (st.load_vector.map dec1)
          bin_uar_hi := st.bin_uar_hi } := by
  show (((List.range _).map gen).foldl phase2Step _) = _
  rw [phase1_spec]

theorem nextRound_length (st : RepeatedBallsIntoBins) (gen : Nat → Nat) :
    (nextRound st gen).load_vector.length = st.load_vector.length := by
  rw [nextRound_eq, phase2_foldl_length]
  simp

theorem nextRound_bin_uar_hi (st : RepeatedBallsIntoBins) (gen : Nat → Nat) :
    (nextRound st gen).bin_uar_hi = st.bin_uar_hi := by
  rw [nextRound_eq, phase2_foldl_bin_uar_hi]

theorem mem_draws_lt (st : RepeatedBallsIntoBins) (gen : Nat → Nat)
    (hg : ∀ j, gen j < st.load_vector.length) (b : Nat) :
    ∀ d ∈ (List.range b).map gen, d < (st.load_vector.map dec1).length := by
  intro d hd
  rw [List.mem_map] at hd
  obtain ⟨j, _, rfl⟩ := hd
  simpa using hg j

theorem nextRound_consistent (st : RepeatedBallsIntoBins) (gen : Nat → Nat)
    (hg : ∀ j, gen j < st.load_vector.length) :
    (nextRound st gen).max_load = maxLoad (nextRound st gen).load_vector ∧
    (nextRound st gen).num_empty_bins = countEmpty (nextRound st gen).load_vector := by
  rw [nextRound_eq]
  exact phase2_foldl_consistent _ _
    (mem_draws_lt st gen hg _) rfl rfl

theorem nextRound_sum (st : RepeatedBallsIntoBins) (gen : Nat → Nat)
    (hg : ∀ j, gen j < st.load_vector.length)
    (hemp : st.num_empty_bins = countEmpty st.load_vector) :
    (nextRound st gen).load_vector.sum = st.load_vector.sum := by
  rw [nextRound_eq, phase2_foldl_sum _ _ (mem_draws_lt st gen hg _)]
  have h1 := sum_map_dec1 st.load_vector
  have h2 := countEmpty_le_length st.load_vector
  simp only [List.length_map, List.length_range]
  omega

end RBB

namespace RBB

/-! ### More pointwise list helpers -/

theorem getD_append_len (l1 l2 : List Nat) (x : Nat) :
    (l1 ++ x :: l2).getD l1.length 0 = x := by
  induction l1 with
  | nil => rfl
  | cons y ys ih =>
    rw [List.cons_append, List.length_cons, List.getD_cons_succ]
    exact ih

theorem set_append_len (l1 l2 : List Nat) (x v : Nat) :
    (l1 ++ x :: l2).set l1.length v = l1 ++ v :: l2 := by
  induction l1 with
  | nil => rfl
  | cons y ys ih =>
    rw [List.cons_append, List.length_cons, List.set_cons_succ, ih]
    rfl

theorem getD_append_at (l1 l2 : List Nat) (x k : Nat) (h : k = l1.length) :
    (l1 ++ x :: l2).getD k 0 = x := by
  rw [h]
  exact getD_append_len l1 l2 x

theorem set_append_at (l1 l2 : List Nat) (x v k : Nat) (h : k = l1.length) :
    (l1 ++ x :: l2).set k v = l1 ++ v :: l2 := by
  rw [h]
  exact set_append_len l1 l2 x v

theorem getD_append_ge (l1 l2 : List Nat) (i : Nat) (h : l1.length ≤ i) :
    (l1 ++ l2).getD i 0 = l2.getD (i - l1.length) 0 := by
  induction l1 generalizing i with
  | nil => simp
  | cons y ys ih =>
    cases i with
    | zero => simp at h
    | succ j =>
      simp only [List.cons_append, List.getD_cons_succ, List.length_cons]
      rw [ih j (by simpa using h)]
      congr 1
      omega

theorem getD_replicate (n x i : Nat) (h : i < n) : (List.replicate n x).getD i 0 = x := by
  simp [List.getD_eq_getElem?_getD, List.getElem?_replicate, h]

theorem maxLoad_replicate_zero (n : Nat) : maxLoad (List.replicate n 0) = 0 := by
  induction n with
  | zero => rfl
  | succ k ih =>
    rw [List.replicate_succ, maxLoad_cons, ih]
    omega

theorem countEmpty_replicate_zero (n : Nat) : countEmpty (List.replicate n 0) = n := by
  induction n with
  | zero => rfl
  | succ k ih =>
    rw [List.replicate_succ, countEmpty_cons, ih, if_pos rfl]
    omega

/-! ### Closed form of the uniform generator -/

theorem gen_uniform_foldl (n b : Nat) :
    ∀ k, k ≤ n →
    (List.range k).foldl (fun lv i => lv.set i (lv.getD i 0 + 1)) (List.replicate n b) =
      List.replicate k (b + 1) ++ List.replicate (n - k) b := by
  intro k
  induction k with
  | zero => simp
  | succ j ih =>
    intro hk
    rw [List.range_succ, List.foldl_append, ih (by omega)]
    have hsplit : n - j = (n - (j + 1)) + 1 := by omega
    rw [hsplit, List.replicate_succ]
    calc (List.replicate j (b + 1) ++ b :: List.replicate (n - (j + 1)) b).set j
            ((List.replicate j (b + 1) ++ b :: List.replicate (n - (j + 1)) b).getD j 0 + 1)
        = (List.replicate j (b + 1) ++ b :: List.replicate (n - (j + 1)) b).set j (b + 1) := by
          rw [getD_append_at (List.replicate j (b + 1)) (List.replicate (n - (j + 1)) b) b j
            (by simp)]
      _ = List.replicate j (b + 1) ++ (b + 1) :: List.replicate (n - (j + 1)) b := by
          rw [set_append_at (List.replicate j (b + 1)) (List.replicate (n - (j + 1)) b) b (b + 1) j
            (by simp)]
      _ = List.replicate (j + 1) (b + 1) ++ List.replicate (n - (j + 1)) b := by
          rw [List.replicate_succ' j (b + 1)]
          simp

theorem generate_uniform_vector_eq (num_bins num_balls : Nat) (h : 0 < num_bins) :
    generate_uniform_vector num_bins num_balls =
      List.replicate (num_balls % num_bins) (num_balls / num_bins + 1) ++
        List.replicate (num_bins - num_balls % num_bins) (num_balls / num_bins) :=
  gen_uniform_foldl num_bins (num_balls / num_bins) (num_balls % num_bins)
    (le_of_lt (Nat.mod_lt _ h))

theorem generate_uniform_vector_length (num_bins num_balls : Nat) (h : 0 < num_bins) :
    (generate_uniform_vector num_bins num_balls).length = num_bins := by
  rw [generate_uniform_vector_eq num_bins num_balls h]
  have := Nat.mod_lt num_balls h
  simp
  omega

theorem generate_uniform_vector_sum (num_bins num_balls : Nat) (h : 0 < num_bins) :
    (generate_uniform_vector num_bins num_balls).sum = num_balls := by
  rw [generate_uniform_vector_eq num_bins num_balls h]
  have hr : num_balls % num_bins ≤ num_bins := le_of_lt (Nat.mod_lt _ h)
  have key := Nat.div_add_mod num_balls num_bins
  obtain ⟨t, ht⟩ := Nat.le.dest hr
  rw [List.sum_append, List.sum_replicate, List.sum_replicate, smul_eq_mul, smul_eq_mul]
  calc (num_balls % num_bins) * (num_balls / num_bins + 1) +
          (num_bins - num_balls % num_bins) * (num_balls / num_bins)
      = (num_balls % num_bins) * (num_balls / num_bins + 1) +
          t * (num_balls / num_bins) := by rw [show num_bins - num_balls % num_bins = t by omega]
    _ = (num_balls % num_bins + t) * (num_balls / num_bins) + num_balls % num_bins := by ring
    _ = num_balls := by rw [ht]; omega

theorem generate_uniform_vector_getD (num_bins num_balls : Nat) (h : 0 < num_bins)
    (i : Nat) (hi : i < num_bins) :
    (generate_uniform_vector num_bins num_balls).getD i 0 =
      if i < num_balls % num_bins then num_balls / num_bins + 1 else num_balls / num_bins := by
  rw [generate_uniform_vector_eq num_bins num_balls h]
  by_cases hlt : i < num_balls % num_bins
  · rw [if_pos hlt, List.getD_append _ _ 0 i (by simpa using hlt)]
    exact getD_replicate _ _ _ hlt
  · rw [if_neg hlt, getD_append_ge _ _ i (by simpa using hlt)]
    have hr : num_balls % num_bins ≤ i := Nat.le_of_not_lt hlt
    rw [List.length_replicate]
    exact getD_replicate _ _ _ (by omega)

end RBB

namespace RBB

/-! ### The experiment accumulation loops -/

theorem roundLoop_foldl (g : Nat → Nat → Nat) (st0 : RepeatedBallsIntoBins) (a b : Nat)
    (T : Nat) :
    (List.range T).foldl (roundStep g) (st0, a, b) =
      (iterRounds st0 g T,
       a + ((List.range T).map (fun r => getMaxLoad (iterRounds st0 g (r + 1)))).sum,
       b + ((List.range T).map (fun r => getNumEmptyBins (iterRounds st0 g (r + 1)))).sum) := by
  induction T with
  | zero => simp [iterRounds]
  | succ T ih =>
    rw [List.range_succ, List.foldl_append, ih, List.map_append, List.map_append,
      List.sum_append, List.sum_append]
    simp only [List.foldl_cons, List.foldl_nil, roundStep, List.map_cons, List.map_nil,
      List.sum_cons, List.sum_nil, Prod.mk.injEq]
    have hiter : iterRounds st0 g (T + 1) = nextRound (iterRounds st0 g T) (g T) := rfl
    rw [hiter]
    refine ⟨?_, ?_, ?_⟩ <;> first | trivial | rfl | omega

theorem repLoop_foldl (num_bins num_balls num_rounds : Nat) (gens : Nat → Nat → Nat → Nat)
    (a b : Nat) (R : Nat) :
    (List.range R).foldl (repStep num_bins num_balls num_rounds gens) (a, b) =
      (a + ((List.range R).map (fun rep => ((List.range num_rounds).map (fun r =>
          getMaxLoad (statsAfterRound num_bins num_balls gens rep r))).sum)).sum,
       b + ((List.range R).map (fun rep => ((List.range num_rounds).map (fun r =>
          getNumEmptyBins (statsAfterRound num_bins num_balls gens rep r))).sum)).sum) := by
  induction R with
  | zero => simp
  | succ R ih =>
    rw [List.range_succ, List.foldl_append, ih, List.map_append, List.map_append,
      List.sum_append, List.sum_append]
    simp only [List.foldl_cons, List.foldl_nil, List.map_cons, List.map_nil,
      List.sum_cons, List.sum_nil]
    show repStep num_bins num_balls num_rounds gens _ R = _
    rw [repStep, roundLoop_foldl]
    simp only [statsAfterRound, Prod.mk.injEq]
    refine ⟨?_, ?_⟩ <;> omega

theorem run_experiments_for_n_and_m_eq (num_bins num_balls num_rounds num_repetitions : Nat)
    (gens : Nat → Nat → Nat → Nat) :
    run_experiments_for_n_and_m num_bins num_balls num_rounds num_repetitions gens =
      ((totalMaxLoadSum num_bins num_balls num_rounds num_repetitions gens : ℚ) /
          ((num_rounds * num_repetitions : Nat) : ℚ),
       (totalEmptyBinsSum num_bins num_balls num_rounds num_repetitions gens : ℚ) /
          ((num_rounds * num_repetitions : Nat) : ℚ)) := by
  show ((((List.range num_repetitions).foldl
      (repStep num_bins num_balls num_rounds gens) (0, 0)).1 : ℚ) / _,
    (((List.range num_repetitions).foldl
      (repStep num_bins num_balls num_rounds gens) (0, 0)).2 : ℚ) / _) = _
  rw [repLoop_foldl]
  simp only [Nat.zero_add, totalMaxLoadSum, totalEmptyBinsSum]

end RBB

namespace RBB

/-! ### Further helper lemmas for the claim theorems -/

theorem phase1_getD (lv : List Nat) (i : Nat) (h : i < lv.length) :
    (phase1 lv).1.getD i 0 = dec1 (lv.getD i 0) := by
  rw [phase1_spec]
  show (lv.map dec1).getD i 0 = dec1 (lv.getD i 0)
  rw [getD_lt lv i h, getD_lt (lv.map dec1) i (by simpa using h)]
  simp

theorem iterRounds_succ (st : RepeatedBallsIntoBins) (gens : Nat → Nat → Nat) (k : Nat) :
    iterRounds st gens (k + 1) = nextRound (iterRounds st gens k) (gens k) := rfl

end RBB

namespace RBB

/-! ### The claims -/

/-- C1: for every engine state whose cached statistics are consistent, after
construction from any non-empty load vector and after every `nextRound` call,
the cached `max_load` equals the true maximum entry of the load vector. -/
theorem claim_C1_max_load_invariant (lv : List Nat) (st : RepeatedBallsIntoBins)
    (gen : Nat → Nat) (_hlv : lv ≠ [])
    (_hmax : st.max_load = maxLoad st.load_vector)
    (_hemp : st.num_empty_bins = countEmpty st.load_vector)
    (hg : ∀ j, gen j < st.load_vector.length) :
    (initRBB lv).max_load = maxLoad (initRBB lv).load_vector ∧
    (nextRound st gen).max_load = maxLoad (nextRound st gen).load_vector :=
  ⟨initRBB_max_load lv, (nextRound_consistent st gen hg).1⟩

theorem claim_C1_witness :
    (([2, 0] : List Nat) ≠ []) ∧
    (initRBB [5, 0, 3]).max_load = maxLoad (initRBB [5, 0, 3]).load_vector ∧
    (initRBB [5, 0, 3]).num_empty_bins = countEmpty (initRBB [5, 0, 3]).load_vector ∧
    (initRBB [2, 0]).max_load = maxLoad (initRBB [2, 0]).load_vector ∧
    (nextRound (initRBB [5, 0, 3]) (fun _ => 1)).max_load =
      maxLoad (nextRound (initRBB [5, 0, 3]) (fun _ => 1)).load_vector :=
  ⟨by decide, by decide, by decide,
   (claim_C1_max_load_invariant [2, 0] (initRBB [5, 0, 3]) (fun _ => 1)
      (by decide) (by decide) (by decide)
      (fun _ => (by decide : (1 : Nat) < (initRBB [5, 0, 3]).load_vector.length))).1,
   (claim_C1_max_load_invariant [2, 0] (initRBB [5, 0, 3]) (fun _ => 1)
      (by decide) (by decide) (by decide)
      (fun _ => (by decide : (1 : Nat) < (initRBB [5, 0, 3]).load_vector.length))).2⟩

/-- C2: for every engine state whose cached statistics are consistent, after
construction from any non-empty load vector and after every `nextRound` call,
the cached `num_empty_bins` equals the number of indices holding `0`. -/
theorem claim_C2_num_empty_bins_invariant (lv : List Nat) (st : RepeatedBallsIntoBins)
    (gen : Nat → Nat) (_hlv : lv ≠ [])
    (_hmax : st.max_load = maxLoad st.load_vector)
    (_hemp : st.num_empty_bins = countEmpty st.load_vector)
    (hg : ∀ j, gen j < st.load_vector.length) :
    (initRBB lv).num_empty_bins = countEmpty (initRBB lv).load_vector ∧
    (nextRound st gen).num_empty_bins = countEmpty (nextRound st gen).load_vector :=
  ⟨initRBB_num_empty_bins lv, (nextRound_consistent st gen hg).2⟩

theorem claim_C2_witness :
    (([2, 0] : List Nat) ≠ []) ∧
    (initRBB [5, 0, 3]).max_load = maxLoad (initRBB [5, 0, 3]).load_vector ∧
    (initRBB [5, 0, 3]).num_empty_bins = countEmpty (initRBB [5, 0, 3]).load_vector ∧
    (initRBB [2, 0]).num_empty_bins = countEmpty (initRBB [2, 0]).load_vector ∧
    (nextRound (initRBB [5, 0, 3]) (fun _ => 2)).num_empty_bins =
      countEmpty (nextRound (initRBB [5, 0, 3]) (fun _ => 2)).load_vector :=
  ⟨by decide, by decide, by decide,
   (claim_C2_num_empty_bins_invariant [2, 0] (initRBB [5, 0, 3]) (fun _ => 2)
      (by decide) (by decide) (by decide)
      (fun _ => (by decide : (2 : Nat) < (initRBB [5, 0, 3]).load_vector.length))).1,
   (claim_C2_num_empty_bins_invariant [2, 0] (initRBB [5, 0, 3]) (fun _ => 2)
      (by decide) (by decide) (by decide)
      (fun _ => (by decide : (2 : Nat) < (initRBB [5, 0, 3]).load_vector.length))).2⟩

/-- C3: one `nextRound` call on a state with `n ≥ 1` bins and consistent
`num_empty_bins` leaves the total ball count unchanged; the number of balls
removed in phase 1 is `balls_to_allocate = n - num_empty_bins`, which is
exactly the number of balls added back in phase 2. -/
theorem claim_C3_conservation (st : RepeatedBallsIntoBins) (gen : Nat → Nat)
    (_hn : 1 ≤ st.load_vector.length)
    (hemp : st.num_empty_bins = countEmpty st.load_vector)
    (hg : ∀ j, gen j < st.load_vector.length) :
    (nextRound st gen).load_vector.sum = st.load_vector.sum ∧
    (phase1 st.load_vector).1.sum + (st.load_vector.length - st.num_empty_bins) =
      st.load_vector.sum ∧
    (nextRound st gen).load_vector.sum =
      (phase1 st.load_vector).1.sum + (st.load_vector.length - st.num_empty_bins) := by
  have h2 : (phase1 st.load_vector).1.sum +
      (st.load_vector.length - st.num_empty_bins) = st.load_vector.sum := by
    rw [phase1_spec, hemp]
    exact sum_map_dec1 st.load_vector
  have h1 := nextRound_sum st gen hg hemp
  exact ⟨h1, h2, by omega⟩

theorem claim_C3_witness :
    1 ≤ (initRBB [5, 0, 3]).load_vector.length ∧
    (initRBB [5, 0, 3]).num_empty_bins = countEmpty (initRBB [5, 0, 3]).load_vector ∧
    (nextRound (initRBB [5, 0, 3]) (fun _ => 0)).load_vector.sum =
      (initRBB [5, 0, 3]).load_vector.sum :=
  ⟨by decide, by decide,
   (claim_C3_conservation (initRBB [5, 0, 3]) (fun _ => 0)
      (by decide) (by decide)
      (fun _ => (by decide : (0 : Nat) < (initRBB [5, 0, 3]).load_vector.length))).1⟩

/-- C4: for `num_bins > 0`, `generate_uniform_vector` returns a vector of
length `num_bins` summing to `num_balls` whose `i`-th entry is
`num_balls / num_bins + 1` for the first `num_balls % num_bins` indices and
`num_balls / num_bins` for the rest; in particular
`generate_uniform_vector 4 10 = [3, 3, 2, 2]`. -/
theorem claim_C4_generator (num_bins num_balls : Nat) (h : 0 < num_bins) :
    (generate_uniform_vector num_bins num_balls).length = num_bins ∧
    (generate_uniform_vector num_bins num_balls).sum = num_balls ∧
    (∀ i, i < num_bins →
      (generate_uniform_vector num_bins num_balls).getD i 0 =
        if i < num_balls % num_bins then num_balls / num_bins + 1
        else num_balls / num_bins) ∧
    generate_uniform_vector 4 10 = [3, 3, 2, 2] :=
  ⟨generate_uniform_vector_length num_bins num_balls h,
   generate_uniform_vector_sum num_bins num_balls h,
   fun i hi => generate_uniform_vector_getD num_bins num_balls h i hi,
   by decide⟩

theorem claim_C4_witness :
    0 < 4 ∧
    (generate_uniform_vector 4 10).length = 4 ∧
    (generate_uniform_vector 4 10).sum = 10 ∧
    generate_uniform_vector 4 10 = [3, 3, 2, 2] :=
  ⟨by decide, (claim_C4_generator 4 10 (by decide)).1,
   (claim_C4_generator 4 10 (by decide)).2.1,
   (claim_C4_generator 4 10 (by decide)).2.2.2⟩

/-- C5: phase 1 decrements each positive bin by exactly one (the sum
`+ 1` form certifies that the subtraction does not underflow), leaves empty
bins untouched, and every resulting load is non-negative. -/
theorem claim_C5_phase1_decrement (lv : List Nat) (i : Nat) (h : i < lv.length) :
    (0 < lv.getD i 0 → (phase1 lv).1.getD i 0 + 1 = lv.getD i 0) ∧
    (lv.getD i 0 = 0 → (phase1 lv).1.getD i 0 = 0) ∧
    0 ≤ (phase1 lv).1.getD i 0 := by
  rw [phase1_getD lv i h]
  refine ⟨fun hpos => ?_, fun hz => ?_, Nat.zero_le _⟩
  · simp only [dec1, gt_iff_lt, if_pos hpos]
    omega
  · rw [hz]
    rfl

theorem claim_C5_witness :
    1 < ([5, 0, 3] : List Nat).length ∧
    (0 < ([5, 0, 3] : List Nat).getD 0 0 →
      (phase1 [5, 0, 3]).1.getD 0 0 + 1 = ([5, 0, 3] : List Nat).getD 0 0) ∧
    (([5, 0, 3] : List Nat).getD 1 0 = 0 → (phase1 [5, 0, 3]).1.getD 1 0 = 0) :=
  ⟨by decide,
   (claim_C5_phase1_decrement [5, 0, 3] 0 (by decide)).1,
   (claim_C5_phase1_decrement [5, 0, 3] 1 (by decide)).2.1⟩

end RBB

namespace RBB

/-- C6: from an all-zero load vector of length `n ≥ 1`, `nextRound` allocates
`balls_to_allocate = 0` balls and is a no-op: the state is unchanged, with
`max_load = 0` and `num_empty_bins = n`. -/
theorem claim_C6_all_zero_noop (n : Nat) (gen : Nat → Nat) (_h : 1 ≤ n) :
    (initRBB (List.replicate n 0)).load_vector.length -
        (initRBB (List.replicate n 0)).num_empty_bins = 0 ∧
    nextRound (initRBB (List.replicate n 0)) gen = initRBB (List.replicate n 0) ∧
    (initRBB (List.replicate n 0)).max_load = 0 ∧
    (initRBB (List.replicate n 0)).num_empty_bins = n := by
  have hemp : (initRBB (List.replicate n 0)).num_empty_bins = n := by
    rw [initRBB_num_empty_bins, countEmpty_replicate_zero]
  have hmax : (initRBB (List.replicate n 0)).max_load = 0 := by
    rw [initRBB_max_load, maxLoad_replicate_zero]
  have hlen : (initRBB (List.replicate n 0)).load_vector.length = n := by
    rw [initRBB_load_vector, List.length_replicate]
  refine ⟨by omega, ?_, hmax, hemp⟩
  rw [nextRound_eq, hlen, hemp, Nat.sub_self, List.range_zero, List.map_nil, List.foldl_nil,
    initRBB_load_vector, List.map_replicate, show dec1 0 = 0 from rfl]
  ext <;> simp [initRBB_load_vector, initRBB_max_load, initRBB_num_empty_bins]

theorem claim_C6_witness :
    1 ≤ 3 ∧
    (initRBB (List.replicate 3 0)).load_vector.length -
        (initRBB (List.replicate 3 0)).num_empty_bins = 0 ∧
    nextRound (initRBB (List.replicate 3 0)) (fun _ => 0) = initRBB (List.replicate 3 0) ∧
    (initRBB (List.replicate 3 0)).max_load = 0 ∧
    (initRBB (List.replicate 3 0)).num_empty_bins = 3 :=
  ⟨by decide,
   (claim_C6_all_zero_noop 3 (fun _ => 0) (by decide)).1,
   (claim_C6_all_zero_noop 3 (fun _ => 0) (by decide)).2.1,
   (claim_C6_all_zero_noop 3 (fun _ => 0) (by decide)).2.2.1,
   (claim_C6_all_zero_noop 3 (fun _ => 0) (by decide)).2.2.2⟩

/-- C7: in a single-bin system with initial load `m > 0`, after every round
the load vector is still `[m]`, the cached maximum is `m` and no bin is
empty: each round removes the one ball and puts it back in the only bin. -/
theorem claim_C7_single_bin (m : Nat) (gens : Nat → Nat → Nat) (hm : 0 < m)
    (hg : ∀ k j, gens k j < 1) :
    ∀ k, (iterRounds (initRBB [m]) gens k).load_vector = [m] ∧
      (iterRounds (initRBB [m]) gens k).max_load = m ∧
      (iterRounds (initRBB [m]) gens k).num_empty_bins = 0 := by
  obtain ⟨p, rfl⟩ : ∃ p, m = p + 1 := ⟨m - 1, by omega⟩
  have hg0 : ∀ k, gens k 0 = 0 := fun k => Nat.lt_one_iff.mp (hg k 0)
  have hmp : maxLoad [p] = p := by simp [maxLoad]
  have key : ∀ k, iterRounds (initRBB [p + 1]) gens k =
      ⟨[p + 1], p + 1, 0, 0⟩ := by
    intro k
    induction k with
    | zero =>
      show initRBB [p + 1] = _
      ext
      · rfl
      · rw [initRBB_max_load]
        simp [maxLoad]
      · rw [initRBB_num_empty_bins]
        rfl
      · rfl
    | succ k ih =>
      rw [iterRounds_succ, ih, nextRound_eq]
      show ((List.range 1).map (gens k)).foldl phase2Step
        ⟨[dec1 (p + 1)], maxLoad [dec1 (p + 1)], countEmpty [dec1 (p + 1)], 0⟩ =
        ⟨[p + 1], p + 1, 0, 0⟩
      have hd : dec1 (p + 1) = p := by
        simp only [dec1, gt_iff_lt, Nat.succ_pos, if_true]
        omega
      rw [hd, show List.range 1 = [0] by decide]
      show phase2Step ⟨[p], maxLoad [p], countEmpty [p], 0⟩ (gens k 0) = _
      rw [hg0 k]
      ext
      · rfl
      · show max (maxLoad [p]) ([p].getD 0 0 + 1) = p + 1
        rw [hmp]
        show max p (p + 1) = p + 1
        omega
      · show countEmpty [p] - (if [p].getD 0 0 + 1 = 1 then 1 else 0) = 0
        rcases p with _ | q
        · decide
        · rfl
      · rfl
  intro k
  rw [key k]
  exact ⟨rfl, rfl, rfl⟩

theorem claim_C7_witness :
    0 < 4 ∧
    ∀ k, (iterRounds (initRBB [4]) (fun _ _ => 0) k).load_vector = [4] ∧
      (iterRounds (initRBB [4]) (fun _ _ => 0) k).max_load = 4 ∧
      (iterRounds (initRBB [4]) (fun _ _ => 0) k).num_empty_bins = 0 :=
  ⟨by decide,
   claim_C7_single_bin 4 (fun _ _ => 0) (by decide)
     (fun _ _ => (by decide : (0 : Nat) < 1))⟩

/-- C9: the length of the load vector never changes: after any number of
`nextRound` calls it still equals the length of the vector passed at
construction. -/
theorem claim_C9_vector_length_fixed (lv : List Nat) (gens : Nat → Nat → Nat) (k : Nat) :
    (iterRounds (initRBB lv) gens k).load_vector.length = lv.length := by
  induction k with
  | zero => rfl
  | succ k ih => rw [iterRounds_succ, nextRound_length, ih]

/-- C10: the uniform bin distribution is fixed to `[0, n - 1]` at
construction and never modified by `nextRound`; hence every sampled index
satisfying the distribution's contract is an in-bounds position of the load
vector, phase 1 rewrites exactly the `n` existing positions, and every
phase-2 increment keeps the vector length equal to `n`. -/
theorem claim_C10_accesses_in_bounds (lv : List Nat) (st : RepeatedBallsIntoBins)
    (gen : Nat → Nat) (_hlv : lv ≠ []) (hst : st.load_vector ≠ [])
    (hhi : st.bin_uar_hi = st.load_vector.length - 1)
    (hg : ∀ j, gen j ≤ st.bin_uar_hi) :
    (initRBB lv).bin_uar_hi = lv.length - 1 ∧
    (nextRound st gen).bin_uar_hi = st.bin_uar_hi ∧
    (∀ j, gen j < st.load_vector.length) ∧
    (phase1 st.load_vector).1 = st.load_vector.map dec1 ∧
    (∀ ds : List Nat,
      (ds.foldl phase2Step
        { load_vector := (phase1 st.load_vector).1
          max_load := (phase1 st.load_vector).2.1
          num_empty_bins := (phase1 st.load_vector).2.2
          bin_uar_hi := st.bin_uar_hi }).load_vector.length = st.load_vector.length) := by
  have hlen : 0 < st.load_vector.length := List.length_pos.mpr hst
  refine ⟨initRBB_bin_uar_hi lv, nextRound_bin_uar_hi st gen, ?_, ?_, ?_⟩
  · intro j
    have hj := hg j
    rw [hhi] at hj
    omega
  · rw [phase1_spec]
  · intro ds
    rw [phase2_foldl_length]
    show (phase1 st.load_vector).1.length = st.load_vector.length
    rw [phase1_spec]
    simp

theorem claim_C10_witness :
    (([1] : List Nat) ≠ []) ∧
    ((initRBB [2, 0]).load_vector ≠ []) ∧
    (initRBB [2, 0]).bin_uar_hi = (initRBB [2, 0]).load_vector.length - 1 ∧
    (initRBB [1]).bin_uar_hi = ([1] : List Nat).length - 1 ∧
    (nextRound (initRBB [2, 0]) (fun _ => 1)).bin_uar_hi = (initRBB [2, 0]).bin_uar_hi ∧
    (phase1 (initRBB [2, 0]).load_vector).1 = (initRBB [2, 0]).load_vector.map dec1 :=
  ⟨by decide, by decide, by decide,
   (claim_C10_accesses_in_bounds [1] (initRBB [2, 0]) (fun _ => 1)
      (by decide) (by decide) (by decide)
      (fun _ => (by decide : (1 : Nat) ≤ (initRBB [2, 0]).bin_uar_hi))).1,
   (claim_C10_accesses_in_bounds [1] (initRBB [2, 0]) (fun _ => 1)
      (by decide) (by decide) (by decide)
      (fun _ => (by decide : (1 : Nat) ≤ (initRBB [2, 0]).bin_uar_hi))).2.1,
   (claim_C10_accesses_in_bounds [1] (initRBB [2, 0]) (fun _ => 1)
      (by decide) (by decide) (by decide)
      (fun _ => (by decide : (1 : Nat) ≤ (initRBB [2, 0]).bin_uar_hi))).2.2.2.1⟩

/-- C8: the experiment runner accumulates the per-round `getMaxLoad` and
`getNumEmptyBins` values over all `num_rounds × num_repetitions` rounds and
returns the two sums divided by `num_rounds * num_repetitions`; the
empty-bin average is further divided by `num_bins` before being reported. -/
theorem claim_C8_experiment_averages (num_bins num_balls num_rounds num_repetitions : Nat)
    (gens : Nat → Nat → Nat → Nat) (_h1 : 1 ≤ num_bins) (_h2 : 1 ≤ num_rounds)
    (_h3 : 1 ≤ num_repetitions) :
    run_experiments_for_n_and_m num_bins num_balls num_rounds num_repetitions gens =
      ((totalMaxLoadSum num_bins num_balls num_rounds num_repetitions gens : ℚ) /
          ((num_rounds * num_repetitions : Nat) : ℚ),
       (totalEmptyBinsSum num_bins num_balls num_rounds num_repetitions gens : ℚ) /
          ((num_rounds * num_repetitions : Nat) : ℚ)) ∧
    reported_empty_bin_fraction num_bins num_balls num_rounds num_repetitions gens =
      (totalEmptyBinsSum num_bins num_balls num_rounds num_repetitions gens : ℚ) /
        ((num_rounds * num_repetitions : Nat) : ℚ) / (num_bins : ℚ) := by
  refine ⟨run_experiments_for_n_and_m_eq num_bins num_balls num_rounds num_repetitions gens, ?_⟩
  show (run_experiments_for_n_and_m num_bins num_balls num_rounds num_repetitions gens).2 /
      (num_bins : ℚ) = _
  rw [run_experiments_for_n_and_m_eq]

theorem claim_C8_witness :
    1 ≤ 1 ∧ 1 ≤ 2 ∧ 1 ≤ 2 ∧
    (run_experiments_for_n_and_m 1 3 2 2 (fun _ _ _ => 0) =
      ((totalMaxLoadSum 1 3 2 2 (fun _ _ _ => 0) : ℚ) / ((2 * 2 : Nat) : ℚ),
       (totalEmptyBinsSum 1 3 2 2 (fun _ _ _ => 0) : ℚ) / ((2 * 2 : Nat) : ℚ)) ∧
     reported_empty_bin_fraction 1 3 2 2 (fun _ _ _ => 0) =
      (totalEmptyBinsSum 1 3 2 2 (fun _ _ _ => 0) : ℚ) / ((2 * 2 : Nat) : ℚ) / (1 : ℚ)) :=
  ⟨by decide, by decide, by decide,
   claim_C8_experiment_averages 1 3 2 2 (fun _ _ _ => 0) (by decide) (by decide) (by decide)⟩

end RBB
